import Mathlib

/-!
Verification of the request/response pipeline of the airforge backend
(`src/main.py`): the prompt builder, the model-output parser
`parse_llm_output`, the source sanitizer of `compile_contract` (two
`re.sub` passes), and the result extraction around the two external
collaborators (the language model and the Solidity compiler).

Texts are modelled as `List Char`.  The two collaborators are modelled as
function parameters returning `Except`; a raised exception caught by the
`except` block of a handler becomes an `Except.error (500, detail)` value
(FastAPI `HTTPException(status_code=500, detail=...)`).

Scanning functions that a regex engine runs left to right are written with
an explicit fuel argument (structurally recursive on the fuel, with fuel =
input length at the top-level wrapper) so that every definition is
kernel-computable; fuel-irrelevance lemmas below recover clean equations.
-/

set_option maxRecDepth 8192

namespace Airforge

/-- Python whitespace stripped by `str.strip()` (ASCII range, which is the
alphabet of the texts this service handles). -/
def isPySpace (c : Char) : Bool :=
  c = ' ' || c = '\t' || c = '\n' || c = '\r' || c = '\x0b' || c = '\x0c'

/-- Python `str.strip()`: drop leading and trailing whitespace. -/
def pyStrip (cs : List Char) : List Char :=
  ((cs.dropWhile isPySpace).reverse.dropWhile isPySpace).reverse

/-- The three-backtick fence delimiter that `parse_llm_output` splits on. -/
def bq3 : List Char := ['`', '`', '`']

/-- The opening tag of the regex `(fence)solidity(.*?)(fence)` used for the
code block. -/
def solTag : List Char := "```solidity".toList

/-- First occurrence of `sep`: the text before the match and the text after
it (leftmost-match building block shared by `str.split` and `re.search`). -/
def splitFirst (sep : List Char) : List Char → Option (List Char × List Char)
  | [] => none
  | c :: rest =>
    if sep.isPrefixOf (c :: rest) then some ([], (c :: rest).drop sep.length)
    else (splitFirst sep rest).map (fun p => (c :: p.1, p.2))

/-- Python `str.split(sep)` for a nonempty separator, with explicit fuel
(one unit per found occurrence; `cs.length` always suffices). -/
def splitSepF (sep : List Char) : Nat → List Char → List (List Char)
  | 0, cs => [cs]
  | fuel + 1, cs =>
    match splitFirst sep cs with
    | none => [cs]
    | some (pre, post) => pre :: splitSepF sep fuel post

/-- Python `str.split(sep)` (always returns at least one piece). -/
def pySplit (sep : List Char) (cs : List Char) : List (List Char) :=
  splitSepF sep cs.length cs

/-! ## The response parser `parse_llm_output`

`re.search(r'(fence)solidity(.*?)(fence)', output, re.DOTALL)`: the engine
tries each start position left to right; at a position the pattern matches
iff the tag `(fence)solidity` starts there and a closing fence occurs
somewhere after it; the lazy `(.*?)` makes group 1 end at the first closing
fence.  `reSearchSolidity` returns group 1 of that leftmost match. -/

def reSearchSolidity : List Char → Option (List Char)
  | [] => none
  | c :: rest =>
    if solTag.isPrefixOf (c :: rest) then
      match splitFirst bq3 ((c :: rest).drop solTag.length) with
      | some p => some p.1
      | none => reSearchSolidity rest
    else reSearchSolidity rest

/-- The function `parse_llm_output` (src/main.py lines 43-51): extract the first
`solidity` fenced block as `code` (empty if none), then split the whole
reply on the fence delimiter; the first piece is `first_explanation`, the
last piece is `last_explanation`, all three stripped. -/
def parse_llm_output (output : List Char) : List Char × List Char × List Char :=
  let code : List Char :=
    match reSearchSolidity output with
    | some interior => pyStrip interior
    | none => []
  let parts := pySplit bq3 output
  (code, pyStrip parts.headI, pyStrip (parts.getLastD []))

/-! ## The source sanitizer of `compile_contract`

Two `re.sub` passes (src/main.py lines 107-111):
`re.sub(r'// SPDX-License-Identifier: MIT', '', code)` deletes every
occurrence of the literal marker string, then `re.sub(r'//.*', '', code)`
deletes, from every remaining `//`, all following characters up to (not
including) the next newline.  Both are modelled as the left-to-right
non-overlapping scans that `re.sub` performs, with structural fuel. -/

/-- The literal SPDX marker of the first `re.sub` pattern. -/
def spdx : List Char := "// SPDX-License-Identifier: MIT".toList

/-- Scan for `re.sub(r'// SPDX-License-Identifier: MIT', '', ·)`: on a
match, delete the 31 matched characters and continue after them. -/
def removeSPDXF : Nat → List Char → List Char
  | 0, cs => cs
  | _ + 1, [] => []
  | fuel + 1, c :: rest =>
    if spdx.isPrefixOf (c :: rest) then removeSPDXF fuel ((c :: rest).drop spdx.length)
    else c :: removeSPDXF fuel rest

def removeSPDX (cs : List Char) : List Char := removeSPDXF cs.length cs

/-- Scan for `re.sub(r'//.*', '', ·)`: on `//`, delete it and everything up
to the next newline (`.` does not match newline), continue at the newline. -/
def rscF : Nat → List Char → List Char
  | 0, cs => cs
  | _ + 1, [] => []
  | fuel + 1, c :: rest =>
    if c = '/' ∧ rest.head? = some '/' then rscF fuel (rest.dropWhile (· ≠ '\n'))
    else c :: rscF fuel rest

def removeSlashComments (cs : List Char) : List Char := rscF cs.length cs

/-- The sanitizer: both passes, in source order. -/
def sanitize (code : List Char) : List Char := removeSlashComments (removeSPDX code)

/-! ## The generation pipeline

`generate_smart_contract` (src/main.py lines 53-90) formats the fixed
`prompt_template` with the caller's description (Python `str.format`:
doubled braces become literal braces, `(lbrace)description(rbrace)` is
replaced by the description, which is not rescanned), sends that single
prompt to the language-model collaborator, and strips the reply.
`generate_contract` (lines 92-102) parses the stripped reply into the three
response fields.  The collaborator is a function parameter; the returned
list of prompts records each call made to it. -/

/-- The raw `prompt_template` of the source, before `.format` (braces
doubled exactly as in the Python triple-quoted literal). -/
def templateRaw : List Char :=
  ("\nYou are a blockchain developer. You have following simple token contract example.\n```solidity\npragma solidity ^0.8.20;\n\nimport \"@openzeppelin/contracts/token/ERC20/ERC20.sol\";\nimport \"@openzeppelin/contracts/access/Ownable.sol\";\n\ncontract MyToken is ERC20, Ownable \x7b\x7b\n    constructor()\n        ERC20(\"MyToken\", \"MTK\")\n        Ownable(msg.sender)\n    \x7b\x7b\n    \x7d\x7d\n\n    function mint(address to, uint256 amount) public onlyOwner \x7b\x7b\n        _mint(to, amount);\n    \x7d\x7d\n\x7d\x7d\n```\n\nCreate a Solidity smart contract with the following description: \n\x7bdescription\x7d\n").toList

/-- Python `str.format` with the single keyword field `description`:
`(lbrace)(lbrace)` and `(rbrace)(rbrace)` emit one literal brace, a single
opening brace starts a replacement field whose name is skipped up to the
closing brace and whose value `d` is emitted verbatim (not rescanned). -/
def pyFormatAux (d : List Char) : Nat → List Char → List Char
  | 0, rest => rest
  | _ + 1, [] => []
  | fuel + 1, c :: rest =>
    if c = '\x7b' then
      if rest.head? = some '\x7b' then '\x7b' :: pyFormatAux d fuel rest.tail
      else d ++ pyFormatAux d fuel ((rest.dropWhile (· ≠ '\x7d')).tail)
    else if c = '\x7d' ∧ rest.head? = some '\x7d' then '\x7d' :: pyFormatAux d fuel rest.tail
    else c :: pyFormatAux d fuel rest

/-- Python expression `prompt_template.format(description=description)`. -/
def mkPrompt (d : List Char) : List Char := pyFormatAux d templateRaw.length templateRaw

/-- The fixed formatted text preceding the interpolated description in the
prompt (single braces, as `.format` renders them); it embeds the whole
example contract. -/
def promptPrefix : List Char :=
  ("\nYou are a blockchain developer. You have following simple token contract example.\n```solidity\npragma solidity ^0.8.20;\n\nimport \"@openzeppelin/contracts/token/ERC20/ERC20.sol\";\nimport \"@openzeppelin/contracts/access/Ownable.sol\";\n\ncontract MyToken is ERC20, Ownable \x7b\n    constructor()\n        ERC20(\"MyToken\", \"MTK\")\n        Ownable(msg.sender)\n    \x7b\n    \x7d\n\n    function mint(address to, uint256 amount) public onlyOwner \x7b\n        _mint(to, amount);\n    \x7d\n\x7d\n```\n\nCreate a Solidity smart contract with the following description: \n").toList

/-- The JSON body returned by the `/generate_contract` handler. -/
structure GenerationResult where
  code : List Char
  first_explanation : List Char
  last_explanation : List Char
  deriving DecidableEq

/-- Handlers `generate_smart_contract` + `generate_contract`: build the prompt, call
the model once, strip the reply and parse it.  A collaborator exception
becomes HTTP 500 with the exception text as detail.  The second component
is the list of prompts sent to the collaborator. -/
def generate_contract (llm : List Char → Except (List Char) (List Char)) (d : List Char) :
    Except (Nat × List Char) GenerationResult × List (List Char) :=
  let p := mkPrompt d
  match llm p with
  | .error e => (.error (500, e), [p])
  | .ok reply =>
      let parsed := parse_llm_output (pyStrip reply)
      (.ok ⟨parsed.1, parsed.2.1, parsed.2.2⟩, [p])

/-! ## The compilation pipeline

`compile_contract` (src/main.py lines 104-147) sanitizes the submitted
source, invokes the compiler collaborator on it, and extracts the first
contract's ABI and bytecode from `compiled_sol['contracts']['Contract.sol']`
(`list(contract_data.keys())[0]`).  A collaborator exception — and equally
the `IndexError` raised by indexing an empty key list when the source
declares zero contracts — is caught by the handler's `except` block and
becomes HTTP 500 with the exception text as detail. -/

/-- Per-contract compiler output relevant to the handler. -/
structure ContractInfo where
  abi : List Char
  bytecode : List Char
  deriving DecidableEq

/-- The compiler collaborator's output for the single virtual file
`Contract.sol`: the contract-name-keyed mapping, in returned order. -/
structure SolcOutput where
  contracts : List (List Char × ContractInfo)
  deriving DecidableEq

/-- The JSON body returned by the `/compile_contract` handler. -/
structure CompileResult where
  abi : List Char
  bytecode : List Char
  deriving DecidableEq

/-- Python text `str(IndexError(...))` for `list(...)[0]` on an empty list. -/
def pyIndexErrMsg : List Char := "list index out of range".toList

def compile_contract (compiler : List Char → Except (List Char) SolcOutput)
    (code : List Char) : Except (Nat × List Char) CompileResult :=
  match compiler (sanitize code) with
  | .error e => .error (500, e)
  | .ok out =>
    match out.contracts with
    | [] => .error (500, pyIndexErrMsg)
    | (_, info) :: _ => .ok ⟨info.abi, info.bytecode⟩

/-! ## Spec-side descriptions (for refinement claims)

`cutLine` and `specSanitize` are written from the specification's words,
to be compared with the code-derived sanitizer. -/

/-- Modelled from the spec: "remove every line-trailing comment (text from
the double slash to end of line)" — on one line, keep the text before the
first double slash. -/
def cutLine : List Char → List Char
  | [] => []
  | c :: rest => if c = '/' ∧ rest.head? = some '/' then [] else c :: cutLine rest

/-- Join lines back with newlines (inverse of splitting on newline). -/
def joinNl : List (List Char) → List Char
  | [] => []
  | [l] => l
  | l :: ls => l ++ '\n' :: joinNl ls

/-- Modelled from the spec's words in claim C6: "remove every standalone
SPDX-license comment line and every line-trailing comment, and perform no
other transformation": drop each line that is exactly the SPDX marker, cut
every other line at its first double slash. -/
def specSanitize (s : List Char) : List Char :=
  joinNl (((pySplit ['\n'] s).filter (fun l => l ≠ spdx)).map cutLine)

/-- The generic second `re.sub` pass alone (for the redundancy claim C9). -/
def genericPassOnly (s : List Char) : List Char := removeSlashComments s

/-- Returns `true` iff the text contains two adjacent slashes (the anchor both
`re.sub` patterns need). -/
def hasDS : List Char → Bool
  | [] => false
  | c :: rest => (c == '/' && rest.head? == some '/') || hasDS rest

/-- A submission on which the sanitizer is NOT "SPDX-line removal plus
comment removal and nothing else": the SPDX marker is followed by more text
on its line. -/
def c6Input : List Char := "// SPDX-License-Identifier: MITz".toList

/-! ## Lemmas and claim theorems -/

/-- Bridge between the executable prefix test and the prefix relation. -/
theorem prefixOf_iff {l₁ l₂ : List Char} : l₁.isPrefixOf l₂ = true ↔ l₁ <+: l₂ :=
  List.isPrefixOf_iff_prefix

theorem splitFirst_sound {sep : List Char} : ∀ {cs a b : List Char},
    splitFirst sep cs = some (a, b) → cs = a ++ sep ++ b := by
  intro cs
  induction cs with
  | nil => intro a b h; simp [splitFirst] at h
  | cons c rest ih =>
    intro a b h
    rw [splitFirst] at h
    split at h
    · next hpre =>
      have hp : sep <+: c :: rest := prefixOf_iff.mp hpre
      obtain ⟨t, ht⟩ := hp
      simp only [Option.some.injEq, Prod.mk.injEq] at h
      obtain ⟨ha, hb⟩ := h
      subst ha
      have hdt : (c :: rest).drop sep.length = t := by
        rw [← ht]; simp
      rw [← hb, hdt]
      simp [← ht]
    · next hpre =>
      cases hsf : splitFirst sep rest with
      | none => rw [hsf] at h; simp at h
      | some p =>
        rw [hsf] at h
        simp only [Option.map_some', Option.some.injEq, Prod.mk.injEq] at h
        obtain ⟨ha, hb⟩ := h
        have := ih (a := p.1) (b := p.2) (by rw [hsf])
        rw [← ha, ← hb, this]
        simp

theorem splitFirst_snd_lt {sep : List Char} (hs : sep ≠ []) : ∀ {cs a b : List Char},
    splitFirst sep cs = some (a, b) → b.length < cs.length := by
  intro cs
  induction cs with
  | nil => intro a b h; simp [splitFirst] at h
  | cons c rest ih =>
    intro a b h
    rw [splitFirst] at h
    split at h
    · simp only [Option.some.injEq, Prod.mk.injEq] at h
      obtain ⟨_, hb⟩ := h
      rw [← hb]
      simp only [List.length_drop, List.length_cons]
      have : 1 ≤ sep.length := List.length_pos.mpr hs
      omega
    · cases hsf : splitFirst sep rest with
      | none => rw [hsf] at h; simp at h
      | some p =>
        rw [hsf] at h
        simp only [Option.map_some', Option.some.injEq, Prod.mk.injEq] at h
        obtain ⟨_, hb⟩ := h
        have := ih (a := p.1) (b := p.2) (by rw [hsf])
        rw [← hb]
        simp only [List.length_cons]
        omega

theorem splitFirst_none_of_absent {sep : List Char} : ∀ {cs : List Char},
    ¬ sep <:+: cs → splitFirst sep cs = none := by
  intro cs h
  cases hsf : splitFirst sep cs with
  | none => rfl
  | some p =>
    exfalso
    apply h
    have := splitFirst_sound hsf
    exact ⟨p.1, p.2, this.symm⟩

/-- If `sep` occurs nowhere in `a` (as a prefix of any suffix of the whole
text), the first occurrence of `sep` in `a ++ sep ++ rest` is the shown one. -/
theorem splitFirst_prepend {sep : List Char} (hs : sep ≠ []) : ∀ {a rest : List Char},
    (∀ i, i < a.length → ¬ sep <+: (a ++ sep ++ rest).drop i) →
    splitFirst sep (a ++ sep ++ rest) = some (a, rest) := by
  intro a
  induction a with
  | nil =>
    intro rest _
    cases sep with
    | nil => exact absurd rfl hs
    | cons s stail =>
      rw [List.nil_append, List.cons_append, splitFirst]
      rw [if_pos]
      · simp
      · exact prefixOf_iff.mpr ⟨rest, by simp⟩
  | cons c a' ih =>
    intro rest h
    rw [List.cons_append, List.cons_append, splitFirst]
    rw [if_neg]
    · rw [ih]
      · simp
      · intro i hi
        have := h (i + 1) (by simpa using Nat.succ_lt_succ hi)
        simpa using this
    · intro hpre
      exact h 0 (by simp) (by simpa using prefixOf_iff.mp hpre)

theorem splitSepF_fuel_eq {sep : List Char} (hs : sep ≠ []) :
    ∀ n, ∀ {cs : List Char} {f g : Nat}, cs.length ≤ n →
      cs.length ≤ f → cs.length ≤ g → splitSepF sep f cs = splitSepF sep g cs := by
  intro n
  induction n with
  | zero =>
    intro cs f g hn _ _
    have hcs : cs = [] := List.eq_nil_of_length_eq_zero (Nat.le_zero.mp hn)
    subst hcs
    cases f <;> cases g <;> simp [splitSepF, splitFirst]
  | succ n ih =>
    intro cs f g hn hf hg
    cases f with
    | zero =>
      have hcs : cs = [] := List.eq_nil_of_length_eq_zero (Nat.le_zero.mp hf)
      subst hcs
      cases g <;> simp [splitSepF, splitFirst]
    | succ f' =>
      cases g with
      | zero =>
        have hcs : cs = [] := List.eq_nil_of_length_eq_zero (Nat.le_zero.mp hg)
        subst hcs
        simp [splitSepF, splitFirst]
      | succ g' =>
        rw [splitSepF, splitSepF]
        cases hsf : splitFirst sep cs with
        | none => rfl
        | some p =>
          obtain ⟨pre, post⟩ := p
          have hlt := splitFirst_snd_lt hs hsf
          have hpn : post.length ≤ n := by omega
          exact congrArg (pre :: ·) (ih hpn (by omega) (by omega))

theorem pySplit_eq_none {sep cs : List Char} (h : splitFirst sep cs = none) :
    pySplit sep cs = [cs] := by
  unfold pySplit
  cases hl : cs.length with
  | zero => simp [splitSepF]
  | succ n => simp [splitSepF, h]

theorem pySplit_eq_some {sep cs pre post : List Char} (hs : sep ≠ [])
    (h : splitFirst sep cs = some (pre, post)) :
    pySplit sep cs = pre :: pySplit sep post := by
  unfold pySplit
  have hlt := splitFirst_snd_lt hs h
  cases hl : cs.length with
  | zero =>
    exfalso; omega
  | succ n =>
    rw [splitSepF, h]
    have h1 : post.length ≤ n := by omega
    show pre :: splitSepF sep n post = pre :: pySplit sep post
    exact congrArg (pre :: ·) (splitSepF_fuel_eq hs post.length (Nat.le_refl _) h1 (Nat.le_refl _))

theorem pySplit_ne_nil (sep cs : List Char) : pySplit sep cs ≠ [] := by
  unfold pySplit
  cases cs.length with
  | zero => simp [splitSepF]
  | succ n =>
    rw [splitSepF]
    cases h : splitFirst sep cs with
    | none => simp
    | some p => obtain ⟨a, b⟩ := p; simp

/-- A successful regex search exhibits a tagged fenced block in the text. -/
theorem reSearchSolidity_some_decomp : ∀ {cs interior : List Char},
    reSearchSolidity cs = some interior →
    ∃ pre post, cs = pre ++ solTag ++ interior ++ bq3 ++ post := by
  intro cs
  induction cs with
  | nil => intro interior h; simp [reSearchSolidity] at h
  | cons c rest ih =>
    intro interior h
    rw [reSearchSolidity] at h
    split at h
    · next hpre =>
      obtain ⟨t, ht⟩ := prefixOf_iff.mp hpre
      have hdt : (c :: rest).drop solTag.length = t := by
        rw [← ht]; simp
      rw [hdt] at h
      cases hsf : splitFirst bq3 t with
      | none =>
        rw [hsf] at h
        obtain ⟨pre, post, hd⟩ := ih h
        exact ⟨c :: pre, post, by simp [hd]⟩
      | some p =>
        rw [hsf] at h
        simp only [Option.some.injEq] at h
        have hts := splitFirst_sound hsf
        refine ⟨[], p.2, ?_⟩
        rw [List.nil_append, ← ht, hts, h]
        simp
    · obtain ⟨pre, post, hd⟩ := ih h
      exact ⟨c :: pre, post, by simp [hd]⟩

/-- On a text whose leftmost tagged block is explicitly displayed, the
regex search returns exactly that block's interior. -/
theorem reSearchSolidity_decomp : ∀ {pre mid post : List Char},
    (∀ i, i < pre.length → ¬ solTag <+: (pre ++ solTag ++ mid ++ bq3 ++ post).drop i) →
    (∀ j, j < mid.length → ¬ bq3 <+: (mid ++ bq3 ++ post).drop j) →
    reSearchSolidity (pre ++ solTag ++ mid ++ bq3 ++ post) = some mid := by
  intro pre
  induction pre with
  | nil =>
    intro mid post _ hmid
    have htag : solTag = '`' :: "``solidity".toList := by rfl
    have hcond : solTag.isPrefixOf ('`' :: ("``solidity".toList ++ (mid ++ bq3 ++ post))) = true :=
      prefixOf_iff.mpr ⟨mid ++ bq3 ++ post, by rw [htag]; simp⟩
    have hshape : ([] : List Char) ++ solTag ++ mid ++ bq3 ++ post =
        '`' :: ("``solidity".toList ++ (mid ++ bq3 ++ post)) := by
      rw [htag]; simp
    rw [hshape]
    show (if solTag.isPrefixOf ('`' :: ("``solidity".toList ++ (mid ++ bq3 ++ post))) then
        match splitFirst bq3 (('`' :: ("``solidity".toList ++ (mid ++ bq3 ++ post))).drop
            solTag.length) with
        | some p => some p.1
        | none => reSearchSolidity ("``solidity".toList ++ (mid ++ bq3 ++ post))
      else reSearchSolidity ("``solidity".toList ++ (mid ++ bq3 ++ post))) = some mid
    rw [if_pos hcond]
    have hdrop : ('`' :: ("``solidity".toList ++ (mid ++ bq3 ++ post))).drop solTag.length =
        mid ++ bq3 ++ post := by
      rw [← List.cons_append, ← htag]
      exact List.drop_left _ _
    rw [hdrop]
    have hfs := @splitFirst_prepend bq3 (by decide) mid post
      (by intro i hi; exact hmid i hi)
    rw [hfs]
  | cons c pre' ih =>
    intro mid post hpre hmid
    have hshape : (c :: pre') ++ solTag ++ mid ++ bq3 ++ post =
        c :: (pre' ++ solTag ++ mid ++ bq3 ++ post) := by simp
    have hneg : ¬ solTag.isPrefixOf (c :: (pre' ++ solTag ++ mid ++ bq3 ++ post)) = true := by
      intro hcon
      refine hpre 0 (by simp) ?_
      have := prefixOf_iff.mp hcon
      simpa [hshape] using this
    rw [hshape]
    show (if solTag.isPrefixOf (c :: (pre' ++ solTag ++ mid ++ bq3 ++ post)) then
        match splitFirst bq3 ((c :: (pre' ++ solTag ++ mid ++ bq3 ++ post)).drop
            solTag.length) with
        | some p => some p.1
        | none => reSearchSolidity (pre' ++ solTag ++ mid ++ bq3 ++ post)
      else reSearchSolidity (pre' ++ solTag ++ mid ++ bq3 ++ post)) = some mid
    rw [if_neg hneg]
    refine ih ?_ hmid
    intro i hi
    have := hpre (i + 1) (by simp; omega)
    simpa [hshape] using this

theorem removeSPDXF_fuel_eq :
    ∀ n, ∀ {cs : List Char} {f g : Nat}, cs.length ≤ n →
      cs.length ≤ f → cs.length ≤ g → removeSPDXF f cs = removeSPDXF g cs := by
  intro n
  induction n with
  | zero =>
    intro cs f g hn _ _
    have hcs : cs = [] := List.eq_nil_of_length_eq_zero (Nat.le_zero.mp hn)
    subst hcs
    cases f <;> cases g <;> simp [removeSPDXF]
  | succ n ih =>
    intro cs f g hn hf hg
    cases f with
    | zero =>
      have hcs : cs = [] := List.eq_nil_of_length_eq_zero (Nat.le_zero.mp hf)
      subst hcs
      cases g <;> simp [removeSPDXF]
    | succ f' =>
      cases g with
      | zero =>
        have hcs : cs = [] := List.eq_nil_of_length_eq_zero (Nat.le_zero.mp hg)
        subst hcs
        simp [removeSPDXF]
      | succ g' =>
        cases cs with
        | nil => simp [removeSPDXF]
        | cons c rest =>
          rw [removeSPDXF, removeSPDXF]
          simp only [List.length_cons] at hn hf hg
          split
          · have h31 : spdx.length = 31 := by decide
            have hd : ((c :: rest).drop spdx.length).length = rest.length + 1 - 31 := by
              simp [List.length_drop, h31]
            exact ih (by omega) (by omega) (by omega)
          · exact congrArg (c :: ·) (ih (by omega) (by omega) (by omega))

theorem removeSPDX_nil : removeSPDX [] = [] := rfl

theorem removeSPDX_hit {cs : List Char} (h : spdx <+: cs) :
    removeSPDX cs = removeSPDX (cs.drop spdx.length) := by
  cases cs with
  | nil =>
    exfalso
    have hl := h.length_le
    have h31 : spdx.length = 31 := by decide
    simp only [List.length_nil, h31] at hl
    omega
  | cons c rest =>
    unfold removeSPDX
    rw [show (c :: rest).length = rest.length + 1 from rfl, removeSPDXF,
      if_pos (prefixOf_iff.mpr h)]
    exact removeSPDXF_fuel_eq ((c :: rest).drop spdx.length).length
      (Nat.le_refl _)
      (by simp only [List.length_drop, List.length_cons]
          have h31 : spdx.length = 31 := by decide
          omega)
      (Nat.le_refl _)

theorem removeSPDX_miss {c : Char} {rest : List Char} (h : ¬ spdx <+: (c :: rest)) :
    removeSPDX (c :: rest) = c :: removeSPDX rest := by
  unfold removeSPDX
  rw [show (c :: rest).length = rest.length + 1 from rfl, removeSPDXF,
    if_neg (fun hc => h (prefixOf_iff.mp hc))]

theorem rscF_fuel_eq :
    ∀ n, ∀ {cs : List Char} {f g : Nat}, cs.length ≤ n →
      cs.length ≤ f → cs.length ≤ g → rscF f cs = rscF g cs := by
  intro n
  induction n with
  | zero =>
    intro cs f g hn _ _
    have hcs : cs = [] := List.eq_nil_of_length_eq_zero (Nat.le_zero.mp hn)
    subst hcs
    cases f <;> cases g <;> simp [rscF]
  | succ n ih =>
    intro cs f g hn hf hg
    cases f with
    | zero =>
      have hcs : cs = [] := List.eq_nil_of_length_eq_zero (Nat.le_zero.mp hf)
      subst hcs
      cases g <;> simp [rscF]
    | succ f' =>
      cases g with
      | zero =>
        have hcs : cs = [] := List.eq_nil_of_length_eq_zero (Nat.le_zero.mp hg)
        subst hcs
        simp [rscF]
      | succ g' =>
        cases cs with
        | nil => simp [rscF]
        | cons c rest =>
          rw [rscF, rscF]
          simp only [List.length_cons] at hn hf hg
          split
          · have hlen : (rest.dropWhile (· ≠ '\n')).length ≤ rest.length :=
              (List.dropWhile_sublist _).length_le
            exact ih (by omega) (by omega) (by omega)
          · exact congrArg (c :: ·) (ih (by omega) (by omega) (by omega))

theorem rsc_nil : removeSlashComments [] = [] := rfl

theorem rsc_comment {rest : List Char} (h : rest.head? = some '/') :
    removeSlashComments ('/' :: rest) = removeSlashComments (rest.dropWhile (· ≠ '\n')) := by
  unfold removeSlashComments
  rw [show ('/' :: rest).length = rest.length + 1 from rfl, rscF, if_pos ⟨rfl, h⟩]
  exact rscF_fuel_eq (rest.dropWhile (· ≠ '\n')).length (Nat.le_refl _)
    (List.dropWhile_sublist _).length_le (Nat.le_refl _)

theorem rsc_cons {c : Char} {rest : List Char} (h : ¬ (c = '/' ∧ rest.head? = some '/')) :
    removeSlashComments (c :: rest) = c :: removeSlashComments rest := by
  unfold removeSlashComments
  rw [show (c :: rest).length = rest.length + 1 from rfl, rscF, if_neg h]

theorem mkPrompt_eq (d : List Char) : mkPrompt d = promptPrefix ++ (d ++ ['\n']) := rfl

/-! ## Claims about the response parser -/

/-- C8.  The response parser is total: the split of the reply on the fence
delimiter always yields at least one piece (so Python's `parts[0]` and
`parts[-1]` cannot raise), and `parse_llm_output` yields a triple of texts
on every input. -/
theorem parse_llm_output_total (output : List Char) :
    pySplit bq3 output ≠ [] ∧
    ∃ c f l, parse_llm_output output = (c, f, l) :=
  ⟨pySplit_ne_nil _ _, _, _, _, rfl⟩

/-- C4.  A reply with no fence marker anywhere parses to an empty `code`
and both explanations equal to the whole stripped reply. -/
theorem parse_no_fences (output : List Char) (h : ¬ bq3 <:+: output) :
    parse_llm_output output = ([], pyStrip output, pyStrip output) := by
  have hsf : splitFirst bq3 output = none := splitFirst_none_of_absent h
  have hsplit : pySplit bq3 output = [output] := pySplit_eq_none hsf
  have hre : reSearchSolidity output = none := by
    cases hr : reSearchSolidity output with
    | none => rfl
    | some interior =>
      exfalso
      obtain ⟨pre, post, hd⟩ := reSearchSolidity_some_decomp hr
      apply h
      refine ⟨pre, "solidity".toList ++ interior ++ bq3 ++ post, ?_⟩
      rw [hd]
      have hsol : solTag = bq3 ++ "solidity".toList := rfl
      simp [hsol]
  simp [parse_llm_output, hre, hsplit]

/-- C4 witness. -/
theorem parse_no_fences_witness :
    parse_llm_output ("plain reply".toList) =
      ([], "plain reply".toList, "plain reply".toList) := by
  have h : ¬ bq3 <:+: ("plain reply".toList) := by decide
  rw [parse_no_fences ("plain reply".toList) h]
  decide

/-- C5.  If the reply consists of text `a`, one fence, text `b`, one fence
and text `c`, and those two fences are the only fence-marker occurrences in
it, then `first_explanation` is `a` stripped and `last_explanation` is `c`
stripped. -/
theorem parse_two_fences (a b c : List Char)
    (hocc : ∀ i, i < (a ++ bq3 ++ b ++ bq3 ++ c).length →
      (bq3 <+: (a ++ bq3 ++ b ++ bq3 ++ c).drop i ↔
        (i = a.length ∨ i = a.length + 3 + b.length))) :
    (parse_llm_output (a ++ bq3 ++ b ++ bq3 ++ c)).2.1 = pyStrip a ∧
    (parse_llm_output (a ++ bq3 ++ b ++ bq3 ++ c)).2.2 = pyStrip c := by
  have hb3 : bq3.length = 3 := rfl
  have hlen : (a ++ bq3 ++ b ++ bq3 ++ c).length
      = a.length + 3 + b.length + 3 + c.length := by
    simp [hb3]; omega
  have hassoc : a ++ bq3 ++ b ++ bq3 ++ c = a ++ bq3 ++ (b ++ bq3 ++ c) := by simp
  -- first split: at the first fence
  have hsf1 : splitFirst bq3 (a ++ bq3 ++ (b ++ bq3 ++ c)) = some (a, b ++ bq3 ++ c) := by
    apply splitFirst_prepend (by decide)
    intro i hi hpre
    have hi' : i < (a ++ bq3 ++ b ++ bq3 ++ c).length := by omega
    have := (hocc i hi').mp (by rw [hassoc]; exact hpre)
    omega
  have hp1 : pySplit bq3 (a ++ bq3 ++ b ++ bq3 ++ c)
      = a :: pySplit bq3 (b ++ bq3 ++ c) := by
    rw [hassoc]
    exact pySplit_eq_some (by decide) hsf1
  -- second split: at the second fence
  have hdrop2 : ∀ j : Nat, (a ++ bq3 ++ b ++ bq3 ++ c).drop (a.length + 3 + j)
      = (b ++ bq3 ++ c).drop j := by
    intro j
    rw [hassoc]
    have : (a ++ bq3).length = a.length + 3 := by simp [hb3]
    calc (a ++ bq3 ++ (b ++ bq3 ++ c)).drop (a.length + 3 + j)
        = (a ++ bq3 ++ (b ++ bq3 ++ c)).drop ((a ++ bq3).length + j) := by rw [this]
      _ = (b ++ bq3 ++ c).drop j := List.drop_append j
  have hsf2 : splitFirst bq3 (b ++ bq3 ++ c) = some (b, c) := by
    apply splitFirst_prepend (by decide)
    intro j hj hpre
    have hj' : a.length + 3 + j < (a ++ bq3 ++ b ++ bq3 ++ c).length := by omega
    have := (hocc (a.length + 3 + j) hj').mp (by rw [hdrop2 j]; exact hpre)
    omega
  have hp2 : pySplit bq3 (b ++ bq3 ++ c) = b :: pySplit bq3 c :=
    pySplit_eq_some (by decide) hsf2
  -- no third fence
  have hsf3 : splitFirst bq3 c = none := by
    cases hs : splitFirst bq3 c with
    | none => rfl
    | some p =>
      exfalso
      have hcc := splitFirst_sound hs
      have hclen : c.length = p.1.length + 3 + p.2.length := by
        rw [hcc]
        simp only [List.length_append, hb3]
      have hpre : bq3 <+: (a ++ bq3 ++ b ++ bq3 ++ c).drop
          (a.length + 3 + (b.length + 3 + p.1.length)) := by
        rw [hdrop2 (b.length + 3 + p.1.length)]
        have : (b ++ bq3 ++ c).drop (b.length + 3 + p.1.length)
            = c.drop p.1.length := by
          have hlb : (b ++ bq3).length = b.length + 3 := by simp [hb3]
          have : b ++ bq3 ++ c = (b ++ bq3) ++ c := by simp
          rw [this]
          calc ((b ++ bq3) ++ c).drop (b.length + 3 + p.1.length)
              = ((b ++ bq3) ++ c).drop ((b ++ bq3).length + p.1.length) := by rw [hlb]
            _ = c.drop p.1.length := List.drop_append _
        rw [this, hcc]
        have : (p.1 ++ bq3 ++ p.2).drop p.1.length = bq3 ++ p.2 := by
          have : p.1 ++ bq3 ++ p.2 = p.1 ++ (bq3 ++ p.2) := by simp
          rw [this]
          have := @List.drop_append Char p.1 (bq3 ++ p.2) 0
          simpa using this
        rw [this]
        exact ⟨p.2, rfl⟩
      have hfin := (hocc (a.length + 3 + (b.length + 3 + p.1.length)) (by omega)).mp hpre
      omega
  have hp3 : pySplit bq3 c = [c] := pySplit_eq_none hsf3
  have hparts : pySplit bq3 (a ++ bq3 ++ b ++ bq3 ++ c) = [a, b, c] := by
    rw [hp1, hp2, hp3]
  refine ⟨?_, ?_⟩
  · show pyStrip ((pySplit bq3 (a ++ bq3 ++ b ++ bq3 ++ c)).headI) = pyStrip a
    rw [hparts]
    rfl
  · show pyStrip ((pySplit bq3 (a ++ bq3 ++ b ++ bq3 ++ c)).getLastD []) = pyStrip c
    rw [hparts]
    rfl

/-- C5 witness. -/
theorem parse_two_fences_witness :
    (parse_llm_output (" A ".toList ++ bq3 ++ "B".toList ++ bq3 ++ " C ".toList)).2.1
        = "A".toList ∧
    (parse_llm_output (" A ".toList ++ bq3 ++ "B".toList ++ bq3 ++ " C ".toList)).2.2
        = "C".toList := by
  have h := parse_two_fences (" A ".toList) ("B".toList) (" C ".toList) (by decide)
  exact ⟨by rw [h.1]; decide, by rw [h.2]; decide⟩

/-- C3.  (i) If the reply contains a tagged fenced block — shown as the
leftmost tag occurrence, with a fence-free interior up to its closing
fence — then `code` is that interior, stripped.  (ii) If the reply contains
no tagged block closed by a later fence at all, `code` is empty. -/
theorem parse_code_block :
    (∀ pre mid post : List Char,
      (∀ i, i < pre.length → ¬ solTag <+: (pre ++ solTag ++ mid ++ bq3 ++ post).drop i) →
      (∀ j, j < mid.length → ¬ bq3 <+: (mid ++ bq3 ++ post).drop j) →
      (parse_llm_output (pre ++ solTag ++ mid ++ bq3 ++ post)).1 = pyStrip mid) ∧
    (∀ output : List Char,
      (¬ ∃ pre mid post, output = pre ++ solTag ++ mid ++ bq3 ++ post) →
      (parse_llm_output output).1 = []) := by
  constructor
  · intro pre mid post hpre hmid
    have hre := reSearchSolidity_decomp hpre hmid
    show (match reSearchSolidity (pre ++ solTag ++ mid ++ bq3 ++ post) with
      | some interior => pyStrip interior
      | none => []) = pyStrip mid
    rw [hre]
  · intro output hno
    cases hr : reSearchSolidity output with
    | none => simp [parse_llm_output, hr]
    | some interior =>
      exfalso
      obtain ⟨pre, post, hd⟩ := reSearchSolidity_some_decomp hr
      exact hno ⟨pre, interior, post, hd⟩

/-- C3 witness (both parts, at concrete replies). -/
theorem parse_code_block_witness :
    (parse_llm_output ("x".toList ++ solTag ++ " CODE ".toList ++ bq3 ++ "y".toList)).1
        = "CODE".toList ∧
    (parse_llm_output ("hello".toList)).1 = [] := by
  constructor
  · have h := parse_code_block.1 ("x".toList) (" CODE ".toList) ("y".toList)
      (by decide) (by decide)
    rw [h]; decide
  · apply parse_code_block.2
    rintro ⟨pre, mid, post, hd⟩
    have hc := congrArg (List.count '`') hd
    have h1 : List.count '`' ("hello".toList) = 0 := by decide
    have h2 : List.count '`' solTag = 3 := by decide
    have h3 : List.count '`' bq3 = 3 := by decide
    simp [List.count_append, h2, h3] at hc
    omega

/-! ## Claims about the two endpoint pipelines -/

/-- C1.  For any description, `generate_contract` sends exactly one prompt
to the language-model collaborator; that prompt is the fixed template text
(which embeds the example contract) followed by the description verbatim;
and when the collaborator answers, the endpoint returns a result with the
three text fields — parsing never fails. -/
theorem generate_contract_single_call (llm : List Char → Except (List Char) (List Char))
    (d t : List Char) (h : llm (mkPrompt d) = .ok t) :
    (generate_contract llm d).2 = [mkPrompt d] ∧
    (generate_contract llm d).2.length = 1 ∧
    promptPrefix <+: mkPrompt d ∧
    d <:+: mkPrompt d ∧
    ∃ c f l, (generate_contract llm d).1 = .ok ⟨c, f, l⟩ := by
  refine ⟨?_, ?_, ⟨d ++ ['\n'], (mkPrompt_eq d).symm⟩,
    ⟨promptPrefix, ['\n'], by rw [mkPrompt_eq, List.append_assoc]⟩, ?_⟩
  · simp [generate_contract, h]
  · simp [generate_contract, h]
  · exact ⟨(parse_llm_output (pyStrip t)).1, (parse_llm_output (pyStrip t)).2.1,
      (parse_llm_output (pyStrip t)).2.2, by simp [generate_contract, h]⟩

/-- C1 witness. -/
theorem generate_contract_single_call_witness :
    (generate_contract (fun _ => .ok ("fine".toList)) ("a token".toList)).2
        = [mkPrompt ("a token".toList)] ∧
    (generate_contract (fun _ => .ok ("fine".toList)) ("a token".toList)).2.length = 1 ∧
    promptPrefix <+: mkPrompt ("a token".toList) ∧
    ("a token".toList) <:+: mkPrompt ("a token".toList) ∧
    ∃ c f l, (generate_contract (fun _ => .ok ("fine".toList)) ("a token".toList)).1
        = .ok ⟨c, f, l⟩ :=
  generate_contract_single_call (fun _ => .ok ("fine".toList)) ("a token".toList)
    ("fine".toList) rfl

/-- C2.  When the compiler collaborator raises, `compile_contract` responds
with the single error kind HTTP 500 carrying the raw diagnostic text, and
when the compiled output contains no contract the indexing of the empty
key list likewise ends in HTTP 500 (with Python's `IndexError` text); in
neither case is any partial success value returned. -/
theorem compile_contract_failure (compiler : List Char → Except (List Char) SolcOutput)
    (code : List Char) :
    (∀ e, compiler (sanitize code) = .error e →
      compile_contract compiler code = .error (500, e)) ∧
    (∀ out, compiler (sanitize code) = .ok out → out.contracts = [] →
      compile_contract compiler code = .error (500, pyIndexErrMsg)) := by
  constructor
  · intro e he
    simp [compile_contract, he]
  · intro out hout hempty
    simp [compile_contract, hout, hempty]

/-- C2 witness: a collaborator that raises, and one that returns zero
contracts, both at a concrete submission. -/
theorem compile_contract_failure_witness :
    compile_contract (fun _ => .error ("ParserError: Expected ';'".toList))
        ("contract \x7b".toList) = .error (500, "ParserError: Expected ';'".toList) ∧
    compile_contract (fun _ => .ok ⟨[]⟩) ("pragma solidity ^0.8.20;".toList)
        = .error (500, pyIndexErrMsg) :=
  ⟨(compile_contract_failure _ _).1 _ rfl,
   (compile_contract_failure _ _).2 ⟨[]⟩ rfl rfl⟩

/-! ## Claims about the sanitizer -/

/-- Neither `re.sub` pattern can match a newline, so each scan step
preserves the newline count.  First pass: a deleted SPDX marker contains no
newline. -/
theorem removeSPDX_count_nl_aux (n : Nat) : ∀ cs : List Char, cs.length ≤ n →
    (removeSPDX cs).count '\n' = cs.count '\n' := by
  induction n with
  | zero =>
    intro cs hn
    have hcs : cs = [] := List.eq_nil_of_length_eq_zero (Nat.le_zero.mp hn)
    subst hcs
    rfl
  | succ n ih =>
    intro cs hn
    cases cs with
    | nil => rfl
    | cons c rest =>
      by_cases hp : spdx <+: (c :: rest)
      · obtain ⟨t, ht⟩ := hp
        have hdt : (c :: rest).drop spdx.length = t := by rw [← ht]; simp
        rw [removeSPDX_hit ⟨t, ht⟩, hdt, ih t ?_, ← ht]
        · have : spdx.count '\n' = 0 := by decide
          simp [List.count_append, this]
        · have h31 : spdx.length = 31 := by decide
          have := congrArg List.length ht
          simp only [List.length_append, List.length_cons, h31] at this
          simp only [List.length_cons] at hn
          omega
      · rw [removeSPDX_miss hp]
        simp only [List.count_cons]
        rw [ih rest (by simp only [List.length_cons] at hn; omega)]

theorem removeSPDX_count_nl (cs : List Char) :
    (removeSPDX cs).count '\n' = cs.count '\n' :=
  removeSPDX_count_nl_aux cs.length cs (Nat.le_refl _)

/-- Second pass: a deleted comment consists of the two slashes and the
following run of non-newline characters. -/
theorem rsc_count_nl_aux (n : Nat) : ∀ cs : List Char, cs.length ≤ n →
    (removeSlashComments cs).count '\n' = cs.count '\n' := by
  induction n with
  | zero =>
    intro cs hn
    have hcs : cs = [] := List.eq_nil_of_length_eq_zero (Nat.le_zero.mp hn)
    subst hcs
    rfl
  | succ n ih =>
    intro cs hn
    cases cs with
    | nil => rfl
    | cons c rest =>
      simp only [List.length_cons] at hn
      by_cases hcond : c = '/' ∧ rest.head? = some '/'
      · obtain ⟨hc, hh⟩ := hcond
        subst hc
        rw [rsc_comment hh]
        have hlen : (rest.dropWhile (· ≠ '\n')).length ≤ n :=
          Nat.le_trans (List.dropWhile_sublist _).length_le (by omega)
        rw [ih _ hlen]
        have htk : (rest.takeWhile (· ≠ '\n')).count '\n' = 0 := by
          rw [List.count_eq_zero]
          intro hmem
          have := List.mem_takeWhile_imp hmem
          simp at this
        calc (rest.dropWhile (· ≠ '\n')).count '\n'
            = (rest.takeWhile (· ≠ '\n')).count '\n'
              + (rest.dropWhile (· ≠ '\n')).count '\n' := by rw [htk]; omega
          _ = rest.count '\n' := by
              rw [← List.count_append, List.takeWhile_append_dropWhile]
          _ = ('/' :: rest).count '\n' := by simp [List.count_cons]
      · rw [rsc_cons hcond]
        simp only [List.count_cons]
        rw [ih rest (by omega)]

theorem rsc_count_nl (cs : List Char) :
    (removeSlashComments cs).count '\n' = cs.count '\n' :=
  rsc_count_nl_aux cs.length cs (Nat.le_refl _)

/-- C10.  The sanitizer preserves line structure: the sanitized source has
exactly as many newline characters as the submitted source (comment
removal empties text within lines but never deletes or merges lines). -/
theorem sanitize_preserves_newlines (code : List Char) :
    (sanitize code).count '\n' = code.count '\n' := by
  unfold sanitize
  rw [rsc_count_nl, removeSPDX_count_nl]

/-- The output of the comment scan starts with a slash only if its input
did. -/
theorem rsc_head_slash {cs : List Char}
    (h : (removeSlashComments cs).head? = some '/') : cs.head? = some '/' := by
  cases cs with
  | nil => simp [rsc_nil] at h
  | cons c rest =>
    by_cases hcond : c = '/' ∧ rest.head? = some '/'
    · simp [hcond.1]
    · rw [rsc_cons hcond] at h
      simp at h
      simp [h]

/-- After the comment scan, no two adjacent slashes remain. -/
theorem hasDS_rsc_aux (n : Nat) : ∀ cs : List Char, cs.length ≤ n →
    hasDS (removeSlashComments cs) = false := by
  induction n with
  | zero =>
    intro cs hn
    have hcs : cs = [] := List.eq_nil_of_length_eq_zero (Nat.le_zero.mp hn)
    subst hcs
    rfl
  | succ n ih =>
    intro cs hn
    cases cs with
    | nil => rfl
    | cons c rest =>
      simp only [List.length_cons] at hn
      by_cases hcond : c = '/' ∧ rest.head? = some '/'
      · obtain ⟨hc, hh⟩ := hcond
        subst hc
        rw [rsc_comment hh]
        exact ih _ (Nat.le_trans (List.dropWhile_sublist _).length_le (by omega))
      · rw [rsc_cons hcond]
        rw [hasDS]
        have hrest := ih rest (by omega)
        rw [hrest]
        simp only [Bool.or_false, Bool.and_eq_false_iff]
        by_cases hc : c = '/'
        · right
          rw [beq_eq_false_iff_ne]
          intro hhead
          exact hcond ⟨hc, rsc_head_slash hhead⟩
        · left
          rw [beq_eq_false_iff_ne]
          exact hc

theorem hasDS_rsc (cs : List Char) : hasDS (removeSlashComments cs) = false :=
  hasDS_rsc_aux cs.length cs (Nat.le_refl _)

/-- Without adjacent slashes the comment scan is the identity. -/
theorem rsc_of_hasDS_false_aux (n : Nat) : ∀ cs : List Char, cs.length ≤ n →
    hasDS cs = false → removeSlashComments cs = cs := by
  induction n with
  | zero =>
    intro cs hn _
    have hcs : cs = [] := List.eq_nil_of_length_eq_zero (Nat.le_zero.mp hn)
    subst hcs
    rfl
  | succ n ih =>
    intro cs hn h
    cases cs with
    | nil => rfl
    | cons c rest =>
      simp only [List.length_cons] at hn
      rw [hasDS, Bool.or_eq_false_iff, Bool.and_eq_false_iff] at h
      have hcond : ¬ (c = '/' ∧ rest.head? = some '/') := by
        rintro ⟨hc, hh⟩
        rcases h.1 with h' | h'
        · rw [beq_eq_false_iff_ne] at h'; exact h' hc
        · rw [beq_eq_false_iff_ne] at h'; exact h' hh
      rw [rsc_cons hcond, ih rest (by omega) h.2]

theorem rsc_of_hasDS_false {cs : List Char} (h : hasDS cs = false) :
    removeSlashComments cs = cs :=
  rsc_of_hasDS_false_aux cs.length cs (Nat.le_refl _) h

/-- Without adjacent slashes the SPDX scan is the identity (the marker
begins with two slashes). -/
theorem removeSPDX_of_hasDS_false_aux (n : Nat) : ∀ cs : List Char, cs.length ≤ n →
    hasDS cs = false → removeSPDX cs = cs := by
  induction n with
  | zero =>
    intro cs hn _
    have hcs : cs = [] := List.eq_nil_of_length_eq_zero (Nat.le_zero.mp hn)
    subst hcs
    rfl
  | succ n ih =>
    intro cs hn h
    cases cs with
    | nil => rfl
    | cons c rest =>
      simp only [List.length_cons] at hn
      rw [hasDS, Bool.or_eq_false_iff] at h
      have hp : ¬ spdx <+: (c :: rest) := by
        rintro ⟨t, ht⟩
        have hspdx : spdx = '/' :: '/' :: " SPDX-License-Identifier: MIT".toList := rfl
        rw [hspdx] at ht
        simp only [List.cons_append] at ht
        obtain ⟨hc, hrest⟩ := List.cons.injEq .. ▸ ht
        have hh : rest.head? = some '/' := by rw [← hrest]; rfl
        rcases Bool.and_eq_false_iff.mp h.1 with h' | h'
        · rw [beq_eq_false_iff_ne] at h'; exact h' hc.symm
        · rw [beq_eq_false_iff_ne] at h'; exact h' hh
      rw [removeSPDX_miss hp, ih rest (by omega) h.2]

theorem removeSPDX_of_hasDS_false {cs : List Char} (h : hasDS cs = false) :
    removeSPDX cs = cs :=
  removeSPDX_of_hasDS_false_aux cs.length cs (Nat.le_refl _) h

/-- C7.  The sanitizer is idempotent: its output contains no two adjacent
slashes, so both substitution passes leave it unchanged. -/
theorem sanitize_idempotent (code : List Char) :
    sanitize (sanitize code) = sanitize code := by
  have hds : hasDS (sanitize code) = false := hasDS_rsc _
  show removeSlashComments (removeSPDX (sanitize code)) = sanitize code
  rw [removeSPDX_of_hasDS_false hds, rsc_of_hasDS_false hds]

/-! ## Line-structure refinement of the sanitizer -/

theorem dropWhile_head_false {α : Type} (p : α → Bool) :
    ∀ (l : List α) d r, l.dropWhile p = d :: r → p d = false := by
  intro l
  induction l with
  | nil => intro d r h; simp [List.dropWhile] at h
  | cons c cl ih =>
    intro d r h
    rw [List.dropWhile_cons] at h
    split at h
    · exact ih d r h
    · next hc =>
      cases h
      simpa using hc

theorem splitFirst_nl_line {t r : List Char} (h : '\n' ∉ t) :
    splitFirst ['\n'] (t ++ '\n' :: r) = some (t, r) := by
  induction t with
  | nil =>
    rw [List.nil_append, splitFirst, if_pos]
    · simp
    · exact prefixOf_iff.mpr ⟨r, rfl⟩
  | cons c t' ih =>
    have hc : c ≠ '\n' := fun hcc => h (by simp [hcc])
    rw [List.cons_append, splitFirst, if_neg, ih (fun hm => h (by simp [hm]))]
    · rfl
    · intro hpre
      obtain ⟨u, hu⟩ := prefixOf_iff.mp hpre
      simp only [List.cons_append, List.nil_append] at hu
      exact hc (List.cons.injEq .. ▸ hu).1.symm

theorem splitFirst_nl_none {x : List Char} (h : '\n' ∉ x) :
    splitFirst ['\n'] x = none := by
  apply splitFirst_none_of_absent
  rintro ⟨s, u, hsu⟩
  exact h (by rw [← hsu]; simp)

theorem cutLine_cons_pos {c : Char} {rest : List Char}
    (h : c = '/' ∧ rest.head? = some '/') : cutLine (c :: rest) = [] := by
  rw [cutLine, if_pos h]

theorem cutLine_cons_neg {c : Char} {rest : List Char}
    (h : ¬ (c = '/' ∧ rest.head? = some '/')) :
    cutLine (c :: rest) = c :: cutLine rest := by
  rw [cutLine, if_neg h]

/-- On one newline-free line the comment scan is exactly "cut at the first
double slash". -/
theorem rsc_eq_cutLine_aux (n : Nat) : ∀ x : List Char, x.length ≤ n → '\n' ∉ x →
    removeSlashComments x = cutLine x := by
  induction n with
  | zero =>
    intro x hn _
    have hx : x = [] := List.eq_nil_of_length_eq_zero (Nat.le_zero.mp hn)
    subst hx
    rfl
  | succ n ih =>
    intro x hn hmem
    cases x with
    | nil => rfl
    | cons c rest =>
      simp only [List.length_cons] at hn
      by_cases hcond : c = '/' ∧ rest.head? = some '/'
      · rw [hcond.1, rsc_comment hcond.2, cutLine_cons_pos ⟨rfl, hcond.2⟩]
        have hdw : rest.dropWhile (· ≠ '\n') = [] := by
          rw [List.dropWhile_eq_nil_iff]
          intro a ha
          simp only [ne_eq, decide_eq_true_eq]
          exact fun hav => hmem (List.mem_cons_of_mem _ (hav ▸ ha))
        rw [hdw, rsc_nil]
      · rw [rsc_cons hcond, cutLine_cons_neg hcond,
          ih rest (by omega) (fun hm => hmem (by simp [hm]))]

/-- Peeling one line off the comment scan. -/
theorem rsc_append_line_aux (n : Nat) : ∀ t r : List Char, t.length ≤ n → '\n' ∉ t →
    removeSlashComments (t ++ '\n' :: r) = cutLine t ++ '\n' :: removeSlashComments r := by
  induction n with
  | zero =>
    intro t r hn _
    have ht : t = [] := List.eq_nil_of_length_eq_zero (Nat.le_zero.mp hn)
    subst ht
    rw [List.nil_append, rsc_cons (by simp), cutLine, List.nil_append]
  | succ n ih =>
    intro t r hn hmem
    cases t with
    | nil =>
      rw [List.nil_append, rsc_cons (by simp), cutLine, List.nil_append]
    | cons c t' =>
      simp only [List.length_cons] at hn
      have hmem' : '\n' ∉ t' := fun hm => hmem (by simp [hm])
      rw [List.cons_append]
      by_cases hcond : c = '/' ∧ (t' ++ '\n' :: r).head? = some '/'
      · -- the double slash opens a comment that swallows the rest of the line
        have ht' : t'.head? = some '/' := by
          cases t' with
          | nil =>
            exfalso
            have h2 := hcond.2
            simp at h2
          | cons d t₂ =>
            have h2 := hcond.2
            simpa using h2
        rw [hcond.1, rsc_comment hcond.2]
        have hdw : (t' ++ '\n' :: r).dropWhile (· ≠ '\n') = '\n' :: r := by
          rw [List.dropWhile_append_of_pos]
          · simp
          · intro a ha
            simp only [ne_eq, decide_eq_true_eq]
            exact fun hav => hmem' (hav ▸ ha)
        rw [hdw, rsc_cons (by simp), cutLine_cons_pos ⟨rfl, ht'⟩, List.nil_append]
      · have hcond' : ¬ (c = '/' ∧ t'.head? = some '/') := by
          rintro ⟨hc, hh⟩
          apply hcond
          refine ⟨hc, ?_⟩
          cases t' with
          | nil => simp at hh
          | cons d t₂ => simpa using hh
        rw [rsc_cons hcond, cutLine_cons_neg hcond', ih t' r (by omega) hmem',
          List.cons_append]

theorem rsc_append_line {t r : List Char} (h : '\n' ∉ t) :
    removeSlashComments (t ++ '\n' :: r) = cutLine t ++ '\n' :: removeSlashComments r :=
  rsc_append_line_aux t.length t r (Nat.le_refl _) h

theorem joinNl_cons {l : List Char} {ls : List (List Char)} (h : ls ≠ []) :
    joinNl (l :: ls) = l ++ '\n' :: joinNl ls := by
  cases ls with
  | nil => exact absurd rfl h
  | cons l' ls' => rfl

/-- The comment scan equals the per-line description: split on newlines,
cut each line at its first double slash, rejoin. -/
theorem rsc_joinNl_aux (n : Nat) : ∀ x : List Char, x.length ≤ n →
    removeSlashComments x = joinNl ((pySplit ['\n'] x).map cutLine) := by
  induction n with
  | zero =>
    intro x hn
    have hx : x = [] := List.eq_nil_of_length_eq_zero (Nat.le_zero.mp hn)
    subst hx
    rfl
  | succ n ih =>
    intro x hn
    by_cases hmem : '\n' ∈ x
    · cases hdw : x.dropWhile (· ≠ '\n') with
      | nil =>
        exfalso
        rw [List.dropWhile_eq_nil_iff] at hdw
        have := hdw '\n' hmem
        simp at this
      | cons d r =>
        have hd : d = '\n' := by
          have := dropWhile_head_false (· ≠ '\n') x d r hdw
          simpa using this
        subst hd
        have hx : x = x.takeWhile (· ≠ '\n') ++ '\n' :: r := by
          conv_lhs => rw [← List.takeWhile_append_dropWhile (p := (· ≠ '\n')) (l := x)]
          rw [hdw]
        have hmemt : '\n' ∉ x.takeWhile (· ≠ '\n') := by
          intro hm
          have := List.mem_takeWhile_imp hm
          simp at this
        have hsplit : pySplit ['\n'] x = x.takeWhile (· ≠ '\n') :: pySplit ['\n'] r := by
          conv_lhs => rw [hx]
          exact pySplit_eq_some (by decide) (splitFirst_nl_line hmemt)
        have hlenr : r.length ≤ n := by
          have := congrArg List.length hx
          simp only [List.length_append, List.length_cons] at this
          omega
        conv_lhs => rw [hx]
        rw [rsc_append_line hmemt, hsplit, List.map_cons,
          joinNl_cons (by
            intro hnil
            exact pySplit_ne_nil ['\n'] r (List.map_eq_nil_iff.mp hnil)),
          ih r hlenr]
    · have hsplit : pySplit ['\n'] x = [x] := pySplit_eq_none (splitFirst_nl_none hmem)
      rw [hsplit, List.map_cons, List.map_nil]
      show removeSlashComments x = cutLine x
      exact rsc_eq_cutLine_aux x.length x (Nat.le_refl _) hmem

theorem rsc_joinNl (x : List Char) :
    removeSlashComments x = joinNl ((pySplit ['\n'] x).map cutLine) :=
  rsc_joinNl_aux x.length x (Nat.le_refl _)

/-- C6 counterexample.  The claimed description (`specSanitize`) removes
the whole line tail `(slash)(slash)...z` and yields empty text, but the code
first deletes the exact marker substring and then finds no comment left, so
it returns `"z"` — an extra transformation the claim denies. -/
theorem sanitize_not_spec_description :
    sanitize c6Input = "z".toList ∧
    specSanitize c6Input = [] ∧
    sanitize c6Input ≠ specSanitize c6Input := by
  refine ⟨by decide, by decide, by decide⟩

/-- C6 amended.  What the sanitizer actually does: first delete every
occurrence of the exact SPDX marker string (leaving the rest of its line,
and the line itself, in place), then cut every line at its first remaining
double slash; nothing else. -/
theorem sanitize_two_phase_description (code : List Char) :
    sanitize code = joinNl ((pySplit ['\n'] (removeSPDX code)).map cutLine) :=
  rsc_joinNl (removeSPDX code)

/-- C9 counterexample.  The SPDX-specific substitution is not redundant:
on `c6Input` the generic pass alone deletes the whole text, while SPDX-pass-
then-generic-pass keeps the trailing `"z"`. -/
theorem spdx_pass_not_redundant :
    sanitize c6Input = "z".toList ∧
    genericPassOnly c6Input = [] ∧
    sanitize c6Input ≠ genericPassOnly c6Input := by
  refine ⟨by decide, by decide, by decide⟩

/-! ## Machinery for the amended redundancy claim (C9) -/

theorem removeSPDX_append_nl_aux (n : Nat) : ∀ a b : List Char, a.length ≤ n →
    removeSPDX (a ++ '\n' :: b) = removeSPDX a ++ '\n' :: removeSPDX b := by
  induction n with
  | zero =>
    intro a b hn
    have ha : a = [] := List.eq_nil_of_length_eq_zero (Nat.le_zero.mp hn)
    subst ha
    rw [List.nil_append, removeSPDX_nil, List.nil_append]
    rw [removeSPDX_miss]
    rintro ⟨t, ht⟩
    have : ('\n' : Char) = '/' := by
      have := congrArg List.head? ht
      simpa [spdx] using this
    exact absurd this (by decide)
  | succ n ih =>
    intro a b hn
    cases a with
    | nil =>
      rw [List.nil_append, removeSPDX_nil, List.nil_append]
      rw [removeSPDX_miss]
      rintro ⟨t, ht⟩
      have : ('\n' : Char) = '/' := by
        have := congrArg List.head? ht
        simpa [spdx] using this
      exact absurd this (by decide)
    | cons c a' =>
      simp only [List.length_cons] at hn
      have h31 : spdx.length = 31 := by decide
      by_cases hp : spdx <+: (c :: a')
      · have hlen31 : 31 ≤ (c :: a').length := by
          have := hp.length_le
          omega
        have hpbig : spdx <+: (c :: a') ++ '\n' :: b := by
          obtain ⟨t, ht⟩ := hp
          exact ⟨t ++ '\n' :: b, by rw [← ht]; simp⟩
        rw [List.cons_append] at hpbig ⊢
        rw [removeSPDX_hit hpbig, removeSPDX_hit hp] <;> try rfl
        rw [← List.cons_append, List.drop_append_of_le_length (by rw [h31]; exact hlen31)]
        have hdlen : ((c :: a').drop spdx.length).length ≤ n := by
          simp only [List.length_drop, List.length_cons, h31]
          omega
        exact ih _ b hdlen
      · have hpbig : ¬ spdx <+: (c :: a') ++ '\n' :: b := by
          intro hcon
          apply hp
          -- a prefix reaching past `a` would have to contain the newline
          have htake : spdx = ((c :: a') ++ '\n' :: b).take 31 := by
            obtain ⟨t, ht⟩ := hcon
            rw [← ht, ← h31]
            simp
          by_cases hlen : 31 ≤ (c :: a').length
          · rw [List.take_append_of_le_length hlen] at htake
            rw [htake, ← h31]
            exact List.take_prefix _ _
          · exfalso
            rw [List.take_append_eq_append_take] at htake
            have hmem : '\n' ∈ spdx := by
              rw [htake]
              refine List.mem_append_right _ ?_
              have : 1 ≤ 31 - (c :: a').length := by omega
              cases h : 31 - (c :: a').length with
              | zero => omega
              | succ k => simp [h, List.take_cons]
            exact absurd hmem (by decide)
        rw [List.cons_append] at hpbig
        rw [List.cons_append, removeSPDX_miss hpbig, removeSPDX_miss hp,
          ih a' b (by omega), List.cons_append]

theorem removeSPDX_append_nl {a b : List Char} :
    removeSPDX (a ++ '\n' :: b) = removeSPDX a ++ '\n' :: removeSPDX b :=
  removeSPDX_append_nl_aux a.length a b (Nat.le_refl _)

theorem removeSPDX_sublist_aux (n : Nat) : ∀ cs : List Char, cs.length ≤ n →
    List.Sublist (removeSPDX cs) cs := by
  induction n with
  | zero =>
    intro cs hn
    have hcs : cs = [] := List.eq_nil_of_length_eq_zero (Nat.le_zero.mp hn)
    subst hcs
    exact List.Sublist.refl _
  | succ n ih =>
    intro cs hn
    cases cs with
    | nil => exact List.Sublist.refl _
    | cons c rest =>
      simp only [List.length_cons] at hn
      by_cases hp : spdx <+: (c :: rest)
      · rw [removeSPDX_hit hp]
        have h31 : spdx.length = 31 := by decide
        have hlen : ((c :: rest).drop spdx.length).length ≤ n := by
          simp only [List.length_drop, List.length_cons, h31]
          omega
        exact (ih _ hlen).trans (List.drop_sublist _ _)
      · rw [removeSPDX_miss hp]
        exact (ih rest (by omega)).cons₂ c

theorem removeSPDX_sublist (cs : List Char) : List.Sublist (removeSPDX cs) cs :=
  removeSPDX_sublist_aux cs.length cs (Nat.le_refl _)

theorem removeSPDX_of_absent_aux (n : Nat) : ∀ cs : List Char, cs.length ≤ n →
    ¬ spdx <:+: cs → removeSPDX cs = cs := by
  induction n with
  | zero =>
    intro cs hn _
    have hcs : cs = [] := List.eq_nil_of_length_eq_zero (Nat.le_zero.mp hn)
    subst hcs
    rfl
  | succ n ih =>
    intro cs hn h
    cases cs with
    | nil => rfl
    | cons c rest =>
      simp only [List.length_cons] at hn
      have hp : ¬ spdx <+: (c :: rest) := fun hc => h hc.isInfix
      rw [removeSPDX_miss hp, ih rest (by omega) (fun hc => h (List.infix_cons hc))]

theorem removeSPDX_of_absent {cs : List Char} (h : ¬ spdx <:+: cs) :
    removeSPDX cs = cs :=
  removeSPDX_of_absent_aux cs.length cs (Nat.le_refl _) h

/-- The SPDX scan respects line structure (the marker has no newline), so
it commutes with splitting on newlines. -/
theorem pySplit_nl_removeSPDX_aux (m : Nat) : ∀ s : List Char, s.length ≤ m →
    pySplit ['\n'] (removeSPDX s) = (pySplit ['\n'] s).map removeSPDX := by
  induction m with
  | zero =>
    intro s hm
    have hs : s = [] := List.eq_nil_of_length_eq_zero (Nat.le_zero.mp hm)
    subst hs
    rfl
  | succ m ih =>
    intro s hm
    by_cases hmem : '\n' ∈ s
    · cases hdw : s.dropWhile (· ≠ '\n') with
      | nil =>
        exfalso
        rw [List.dropWhile_eq_nil_iff] at hdw
        have := hdw '\n' hmem
        simp at this
      | cons d r =>
        have hd : d = '\n' := by
          have := dropWhile_head_false (· ≠ '\n') s d r hdw
          simpa using this
        subst hd
        have hs : s = s.takeWhile (· ≠ '\n') ++ '\n' :: r := by
          conv_lhs => rw [← List.takeWhile_append_dropWhile (p := (· ≠ '\n')) (l := s)]
          rw [hdw]
        have hmemt : '\n' ∉ s.takeWhile (· ≠ '\n') := by
          intro hmm
          have := List.mem_takeWhile_imp hmm
          simp at this
        have hmemt' : '\n' ∉ removeSPDX (s.takeWhile (· ≠ '\n')) :=
          fun hmm => hmemt ((removeSPDX_sublist _).subset hmm)
        have hlenr : r.length ≤ m := by
          have := congrArg List.length hs
          simp only [List.length_append, List.length_cons] at this
          omega
        conv_lhs => rw [hs]
        rw [removeSPDX_append_nl,
          pySplit_eq_some (by decide) (splitFirst_nl_line hmemt'),
          ih r hlenr]
        conv_rhs => rw [hs]
        rw [pySplit_eq_some (by decide) (splitFirst_nl_line hmemt), List.map_cons]
    · have hmem' : '\n' ∉ removeSPDX s :=
        fun hmm => hmem ((removeSPDX_sublist _).subset hmm)
      rw [pySplit_eq_none (splitFirst_nl_none hmem'),
        pySplit_eq_none (splitFirst_nl_none hmem), List.map_cons, List.map_nil]

theorem pySplit_nl_removeSPDX (s : List Char) :
    pySplit ['\n'] (removeSPDX s) = (pySplit ['\n'] s).map removeSPDX :=
  pySplit_nl_removeSPDX_aux s.length s (Nat.le_refl _)

/-- Every piece of the newline split of `s` is a newline-free segment of
`s` delimited by newlines (or the ends of the text). -/
theorem pySplit_nl_mem_decomp_aux (m : Nat) : ∀ s : List Char, s.length ≤ m →
    ∀ l ∈ pySplit ['\n'] s, '\n' ∉ l ∧
      ∃ u v, s = u ++ l ++ v ∧ (u = [] ∨ u.getLast? = some '\n') ∧
        (v = [] ∨ v.head? = some '\n') := by
  induction m with
  | zero =>
    intro s hm l hl
    have hs : s = [] := List.eq_nil_of_length_eq_zero (Nat.le_zero.mp hm)
    subst hs
    have : l = [] := by
      have h0 : pySplit ['\n'] ([] : List Char) = [[]] := rfl
      rw [h0] at hl
      simpa using hl
    subst this
    exact ⟨by simp, [], [], by simp, Or.inl rfl, Or.inl rfl⟩
  | succ m ih =>
    intro s hm l hl
    by_cases hmem : '\n' ∈ s
    · cases hdw : s.dropWhile (· ≠ '\n') with
      | nil =>
        exfalso
        rw [List.dropWhile_eq_nil_iff] at hdw
        have := hdw '\n' hmem
        simp at this
      | cons d r =>
        have hd : d = '\n' := by
          have := dropWhile_head_false (· ≠ '\n') s d r hdw
          simpa using this
        subst hd
        have hs : s = s.takeWhile (· ≠ '\n') ++ '\n' :: r := by
          conv_lhs => rw [← List.takeWhile_append_dropWhile (p := (· ≠ '\n')) (l := s)]
          rw [hdw]
        have hmemt : '\n' ∉ s.takeWhile (· ≠ '\n') := by
          intro hmm
          have := List.mem_takeWhile_imp hmm
          simp at this
        have hlenr : r.length ≤ m := by
          have := congrArg List.length hs
          simp only [List.length_append, List.length_cons] at this
          omega
        have hsplit : pySplit ['\n'] s = s.takeWhile (· ≠ '\n') :: pySplit ['\n'] r := by
          conv_lhs => rw [hs]
          exact pySplit_eq_some (by decide) (splitFirst_nl_line hmemt)
        rw [hsplit] at hl
        rcases List.mem_cons.mp hl with hl | hl
        · subst hl
          exact ⟨hmemt, [], '\n' :: r, by simpa using hs, Or.inl rfl, Or.inr rfl⟩
        · obtain ⟨hnl, u, v, hr, hu, hv⟩ := ih r hlenr l hl
          refine ⟨hnl, s.takeWhile (· ≠ '\n') ++ '\n' :: u, v, ?_, ?_, hv⟩
          · conv_lhs => rw [hs, hr]
            simp
          · right
            rcases hu with hu | hu
            · subst hu
              rw [List.getLast?_append]
              rfl
            · rw [List.getLast?_append]
              cases hcu : u with
              | nil => simp [hcu] at hu
              | cons x xs =>
                rw [hcu] at hu
                simp [hu]
    · have hsplit : pySplit ['\n'] s = [s] := pySplit_eq_none (splitFirst_nl_none hmem)
      rw [hsplit] at hl
      have : l = s := by simpa using hl
      subst this
      exact ⟨hmem, [], [], by simp, Or.inl rfl, Or.inl rfl⟩

theorem pySplit_nl_mem_decomp {s l : List Char} (hl : l ∈ pySplit ['\n'] s) :
    '\n' ∉ l ∧ ∃ u v, s = u ++ l ++ v ∧ (u = [] ∨ u.getLast? = some '\n') ∧
      (v = [] ∨ v.head? = some '\n') :=
  pySplit_nl_mem_decomp_aux s.length s (Nat.le_refl _) l hl

/-- C9 amended.  The SPDX substitution is redundant on every input in which
each occurrence of the SPDX marker is a standalone full line (immediately
preceded by a newline or the start of the text, and immediately followed by
a newline or the end): there the generic comment pass alone produces the
same text as SPDX-pass-then-generic-pass. -/
theorem spdx_pass_redundant_standalone (s : List Char)
    (H : ∀ a b : List Char, s = a ++ spdx ++ b →
      (a = [] ∨ a.getLast? = some '\n') ∧ (b = [] ∨ b.head? = some '\n')) :
    sanitize s = genericPassOnly s := by
  show removeSlashComments (removeSPDX s) = removeSlashComments s
  rw [rsc_joinNl (removeSPDX s), rsc_joinNl s, pySplit_nl_removeSPDX, List.map_map]
  congr 1
  apply List.map_congr_left
  intro l hl
  simp only [Function.comp_apply]
  obtain ⟨hnl, u, v, hsuv, _, _⟩ := pySplit_nl_mem_decomp hl
  by_cases hinf : spdx <:+: l
  · obtain ⟨p, q, hpq⟩ := hinf
    have hsdecomp : s = (u ++ p) ++ spdx ++ (q ++ v) := by
      rw [hsuv, ← hpq]
      simp
    obtain ⟨hc1, hc2⟩ := H (u ++ p) (q ++ v) hsdecomp
    have hp0 : p = [] := by
      cases hp : p with
      | nil => rfl
      | cons x xs =>
        exfalso
        rw [hp] at hc1
        rcases hc1 with h1 | h1
        · simp at h1
        · rw [List.getLast?_append] at h1
          cases hgl : (x :: xs).getLast? with
          | none => simp at hgl
          | some y =>
            rw [hgl] at h1
            simp only [Option.or_some, Option.some.injEq] at h1
            subst h1
            have hy : '\n' ∈ x :: xs := List.mem_of_mem_getLast? (by rw [hgl]; rfl)
            have hyp : '\n' ∈ p := hp.symm ▸ hy
            exact hnl (hpq ▸ (List.mem_append_left _ (List.mem_append_left _ hyp)))
    have hq0 : q = [] := by
      cases hq : q with
      | nil => rfl
      | cons x xs =>
        exfalso
        rw [hq] at hc2
        rcases hc2 with h2 | h2
        · simp at h2
        · rw [List.head?_append] at h2
          simp only [List.head?_cons, Option.or_some, Option.some.injEq] at h2
          subst h2
          have hyq : '\n' ∈ q := hq.symm ▸ List.mem_cons_self _ _
          exact hnl (hpq ▸ List.mem_append_right _ hyq)
    have hls : l = spdx := by
      rw [← hpq, hp0, hq0]
      simp
    rw [hls]
    decide
  · rw [removeSPDX_of_absent hinf]

/-- C9 amended witness (at the marker itself, which is one standalone
line). -/
theorem spdx_pass_redundant_standalone_witness :
    sanitize spdx = genericPassOnly spdx := by
  apply spdx_pass_redundant_standalone
  intro a b h
  have hlen := congrArg List.length h
  have h31 : spdx.length = 31 := by decide
  simp only [List.length_append, h31] at hlen
  exact ⟨Or.inl (List.eq_nil_of_length_eq_zero (by omega)),
    Or.inl (List.eq_nil_of_length_eq_zero (by omega))⟩

end Airforge

